import Mathlib

/-!
Shallow embedding of `src/organize_downloads.py` (class `DownloadsOrganizer`)
and verification of its specification.

Modelling choices:
* Python strings are lists of Unicode code points (`Str := List Nat`);
  the helper `str` converts a Lean string literal to that form.
* The filesystem visible to the program is the root directory's immediate
  children (the only entries the code ever enumerates), together with, for
  each child directory, the list of names of its entries (the only part of
  the tree the collision check and the moves touch).
* Environmental move failures (permission denied, path too long, races) are
  modelled by an oracle of type `Str → Option Nat`-like `Str → Option Str`
  giving, per source file name, the failure cause when `shutil.move` would
  raise for external reasons; structural failures (the destination
  category path not being a directory) are derived from the state itself.
* An exception that the Python code does not catch is an `Except.error`
  carrying the exception's name.
* Directory iteration uses a snapshot of the children taken right after
  `create_category_folders`, matching `iterdir` being called at that point;
  a move only deletes the processed file from the root and inserts a new
  name inside a category subdirectory, so the snapshot is undisturbed.
-/

namespace OrganizeDownloads

/-- Python strings, as lists of Unicode code points. -/
abbrev Str : Type := List Nat

/-- Code points of a Lean string literal. -/
def str (s : String) : Str := s.data.map Char.toNat

/-- `str.lower` on one code point (ASCII fragment of Python's lower). -/
def lowerCode (n : Nat) : Nat := if 65 ≤ n ∧ n ≤ 90 then n + 32 else n

/-- Python's `str.lower()`. -/
def pyLower (s : Str) : Str := s.map lowerCode

/-- `name.rfind('.')`: index of the last occurrence of a dot, if any. -/
def rfindDot : Str → Option Nat
  | [] => none
  | c :: rest =>
    match rfindDot rest with
    | some i => some (i + 1)
    | none => if c = 46 then some 0 else none

/-- `pathlib.PurePath.suffix` of a file name: its last dot-extension, empty
when the name has no dot, starts with its only dot, or ends in a dot. -/
def suffixOf (name : Str) : Str :=
  match rfindDot name with
  | some i => if 0 < i ∧ i < name.length - 1 then name.drop i else []
  | none => []

/-- `pathlib.PurePath.stem` of a file name: the name minus `suffixOf`. -/
def stemOf (name : Str) : Str :=
  match rfindDot name with
  | some i => if 0 < i ∧ i < name.length - 1 then name.take i else name
  | none => name

/-- Little-endian decimal digits of `n`; the first argument is fuel,
instantiated with `n` itself so that the recursion is structural. -/
def natDigitsAux : Nat → Nat → List Nat
  | 0, _ => []
  | _ + 1, 0 => []
  | fuel + 1, n + 1 => ((n + 1) % 10) :: natDigitsAux fuel ((n + 1) / 10)

/-- Python's `str(n)` for a positive integer: decimal code points. -/
def natStr (n : Nat) : Str := (natDigitsAux n n).reverse.map (· + 48)

/-- The literal `self.categories` table of `DownloadsOrganizer.__init__`,
in its Python insertion (= iteration) order. -/
def categories : List (Str × List Str) :=
  [ (str "Documents",
      [str ".pdf", str ".doc", str ".docx", str ".txt", str ".rtf",
       str ".odt", str ".xls", str ".xlsx", str ".ppt", str ".pptx"]),
    (str "Images",
      [str ".jpg", str ".jpeg", str ".png", str ".gif", str ".bmp",
       str ".svg", str ".webp", str ".tiff", str ".ico"]),
    (str "Archives",
      [str ".zip", str ".rar", str ".7z", str ".tar", str ".gz", str ".bz2"]),
    (str "Audio",
      [str ".mp3", str ".wav", str ".flac", str ".aac", str ".ogg", str ".m4a"]),
    (str "Video",
      [str ".mp4", str ".avi", str ".mkv", str ".mov", str ".wmv",
       str ".flv", str ".webm"]),
    (str "Executables",
      [str ".exe", str ".msi", str ".dmg", str ".pkg", str ".deb", str ".rpm"]),
    (str "Code",
      [str ".py", str ".js", str ".html", str ".css", str ".java",
       str ".cpp", str ".c", str ".php", str ".rb", str ".json", str ".xml"]),
    (str "Spreadsheets",
      [str ".csv", str ".xls", str ".xlsx", str ".ods"]),
    (str "Presentations",
      [str ".ppt", str ".pptx", str ".odp"]),
    (str "Fonts",
      [str ".ttf", str ".otf", str ".woff", str ".woff2"]),
    (str "Torrents",
      [str ".torrent"]),
    (str "Others", []) ]

/-- The reverse-mapping build loop of `__init__`, generic in the table:
for each category in table order, for each of its extensions, the dict
entry for that extension is overwritten with the category. -/
def buildIndex (tbl : List (Str × List Str)) : Str → Option Str :=
  tbl.foldl
    (fun m p => p.2.foldl (fun m' e => fun x => if x = e then some p.1 else m' x) m)
    (fun _ => none)

/-- `self.extension_to_category`, built once from `categories`. -/
def extension_to_category : Str → Option Str := buildIndex categories

/-- `DownloadsOrganizer.get_file_category`. -/
def get_file_category (file_extension : Str) : Str :=
  (extension_to_category (pyLower file_extension)).getD (str "Others")

/-- A direct child of the root directory: a regular file, or a directory
together with the names of its entries. -/
inductive Entry : Type
  | file (name : Str)
  | dir (name : Str) (contents : List Str)
  deriving DecidableEq, Repr

/-- Name of a child. -/
def Entry.name : Entry → Str
  | .file n => n
  | .dir n _ => n

/-- Whether a child is a directory. -/
def Entry.isDir : Entry → Bool
  | .file _ => false
  | .dir _ _ => true

/-- Resolve a name among the root's children (a path lookup one level
below the root). -/
def lookupEntry (children : List Entry) (n : Str) : Option Entry :=
  children.find? fun e => decide (e.name = n)

/-- Entry names of the directory `root/category`, or `[]` when that path
is not an existing directory. -/
def contentsOf (children : List Entry) (category : Str) : List Str :=
  match lookupEntry children category with
  | some (.dir _ c) => c
  | _ => []

/-- `(root/category/n).exists()`: true when `root/category` is a directory
holding an entry named `n`; a stat failure below a file yields false. -/
def existsIn (children : List Entry) (category : Str) (n : Str) : Bool :=
  match lookupEntry children category with
  | some (.dir _ c) => decide (n ∈ c)
  | _ => false

/-- The conflict candidate built by the loop body at counter value `k`:
the f-string with the stem, an underscore, the counter and the suffix. -/
def candidateName (stem sfx : Str) (k : Nat) : Str :=
  stem ++ str "_" ++ natStr k ++ sfx

/-- The `while dest_path.exists()` loop of `organize_files`, with explicit
fuel; `organize_files` supplies fuel exceeding the size of the directory
being probed, which is proved sufficient below. -/
def findAvailableDest (ex : Str → Bool) (stem sfx : Str) :
    Nat → Str → Nat → Str
  | 0, dest, _ => dest
  | fuel + 1, dest, counter =>
    if ex dest then
      findAvailableDest ex stem sfx fuel (candidateName stem sfx counter) (counter + 1)
    else dest

/-- Events observable from a run: the logger lines, as structured data. -/
inductive Event : Type
  | createdFolder (category : Str)
  | wouldMove (name category : Str)
  | moved (name category : Str)
  | errorMoving (name cause : Str)
  | notFound
  | summary (moved skipped : Nat)
  deriving DecidableEq, Repr

/-- The root path handed to the organizer: absent, an existing regular
file, or an existing directory with a base name and children. -/
inductive RootPath : Type
  | missing
  | file
  | dir (rootName : Str) (children : List Entry)
  deriving DecidableEq, Repr

/-- The folder-creation loop of `create_category_folders`, acting on the
children of an existing root directory: for each category key in table
order, if no entry of that name exists under the root, create the folder
and log it. -/
def ensureFolders (children : List Entry) : List Entry × List Event :=
  categories.foldl
    (fun acc p =>
      if (lookupEntry acc.1 p.1).isSome then acc
      else (acc.1 ++ [.dir p.1 []], acc.2 ++ [.createdFolder p.1]))
    (children, [])

/-- `DownloadsOrganizer.create_category_folders`.  Called on a missing or
non-directory root, the first `mkdir` raises (the `exists()` guard is
false there, since a stat below a file or missing path fails). -/
def create_category_folders : RootPath → Except Str (List Entry × List Event)
  | .missing => .error (str "FileNotFoundError")
  | .file => .error (str "NotADirectoryError")
  | .dir _ children => .ok (ensureFolders children)

/-- `shutil.move(root/name, root/category/destName)` on success: the source
file disappears from the root and `destName` appears inside the category
directory. -/
def moveFile (children : List Entry) (category name destName : Str) : List Entry :=
  (children.filter fun e =>
      match e with
      | .file m => !decide (m = name)
      | .dir _ _ => true).map
    fun e =>
      match e with
      | .dir d c => if d = category then .dir d (c ++ [destName]) else .dir d c
      | f => f

/-- Why `shutil.move` raises for this file, if it does: an environmental
cause from the oracle, or the destination's parent `root/category` not
being an existing directory. -/
def moveFailure (children : List Entry) (category name : Str)
    (oracle : Str → Option Str) : Option Str :=
  match oracle name with
  | some cause => some cause
  | none =>
    match lookupEntry children category with
    | some (.dir _ _) => none
    | some (.file _) => some (str "NotADirectoryError")
    | none => some (str "FileNotFoundError")

/-- Mutable state of the `organize_files` loop: the root's children and
the `files_moved` / `files_skipped` counters, plus the log so far. -/
structure RunState : Type where
  children : List Entry
  events : List Event
  moved : Nat
  skipped : Nat
  deriving DecidableEq, Repr

/-- The category a child resolves to (lines 70-73 of the source):
lowercased suffix, then `get_file_category`. -/
def categoryOf (name : Str) : Str := get_file_category (pyLower (suffixOf name))

/-- `name.startswith('.')`. -/
def startsWithDot : Str → Bool
  | [] => false
  | c :: _ => decide (c = 46)

/-- The body of the `for item in self.downloads_path.iterdir()` loop
(lines 64-100 of the source).  `rootName` is `item.parent.name`, the base
name of the root, since every item is a direct child of the root. -/
def processItem (dry_run : Bool) (oracle : Str → Option Str) (rootName : Str)
    (rs : RunState) (item : Entry) : RunState :=
  match item with
  | .dir _ _ => rs
  | .file name =>
    if startsWithDot name then rs
    else
      let category := categoryOf name
      if rootName = category then rs
      else
        let destName :=
          findAvailableDest (existsIn rs.children category)
            (stemOf name) (suffixOf name)
            ((contentsOf rs.children category).length + 2) name 1
        if dry_run then
          { rs with events := rs.events ++ [.wouldMove name category] }
        else
          match moveFailure rs.children category name oracle with
          | none =>
            { children := moveFile rs.children category name destName,
              events := rs.events ++ [.moved name category],
              moved := rs.moved + 1,
              skipped := rs.skipped }
          | some cause =>
            { rs with
              events := rs.events ++ [.errorMoving name cause],
              skipped := rs.skipped + 1 }

/-- Outcome of `organize_files`: final root, log, the Python return value
(`retval`, always `None`), and the final local counter values. -/
structure OrganizeResult : Type where
  root : RootPath
  events : List Event
  retval : Option (Nat × Nat)
  moved : Nat
  skipped : Nat
  deriving DecidableEq, Repr

/-- `DownloadsOrganizer.organize_files`.  A missing root is reported and
the method returns `None`; an existing non-directory root passes the
`exists()` check and then crashes inside `create_category_folders`. -/
def organize_files (dry_run : Bool) (oracle : Str → Option Str) :
    RootPath → Except Str OrganizeResult
  | .missing => .ok ⟨.missing, [.notFound], none, 0, 0⟩
  | .file =>
    match create_category_folders .file with
    | .error e => .error e
    | .ok _ => .ok ⟨.file, [], none, 0, 0⟩
  | .dir rootName children =>
    match create_category_folders (.dir rootName children) with
    | .error e => .error e
    | .ok ec =>
      let children1 := ec.1
      let createEvents := ec.2
      let final := children1.foldl (processItem dry_run oracle rootName)
        ⟨children1, createEvents, 0, 0⟩
      .ok ⟨.dir rootName final.children,
           final.events ++ [.summary final.moved final.skipped],
           none, final.moved, final.skipped⟩

/-- Projection: children of a resulting root (empty for non-directories). -/
def rootChildren : RootPath → List Entry
  | .dir _ children => children
  | _ => []

/-- Projection: moved counter of a run that did not crash. -/
def runMoved (x : Except Str OrganizeResult) : Option Nat :=
  x.toOption.map (·.moved)

/-- Projection: skipped counter of a run that did not crash. -/
def runSkipped (x : Except Str OrganizeResult) : Option Nat :=
  x.toOption.map (·.skipped)

/-- Projection: events of a run that did not crash. -/
def runEvents (x : Except Str OrganizeResult) : Option (List Event) :=
  x.toOption.map (·.events)

/-- Run `organize_files` again on the root a previous run left behind. -/
def rerun (dry_run : Bool) (oracle : Str → Option Str)
    (x : Except Str OrganizeResult) : Except Str OrganizeResult :=
  match x with
  | .ok r => organize_files dry_run oracle r.root
  | .error e => .error e

/-- The source-name / category pairs of the `Moved:` log lines. -/
def movedPairs (evts : List Event) : List (Str × Str) :=
  evts.filterMap fun e =>
    match e with
    | .moved n c => some (n, c)
    | _ => none

/-- The source-name / category pairs of the `Would move:` log lines. -/
def wouldMovePairs (evts : List Event) : List (Str × Str) :=
  evts.filterMap fun e =>
    match e with
    | .wouldMove n c => some (n, c)
    | _ => none

/-- The oracle of an environment in which no move fails for external
reasons (no permission errors, no races). -/
def noFailures : Str → Option Str := fun _ => none

/-- The iteration-plus-fold core of `organize_files` on an existing root
directory: children are snapshot right after folder creation and folded
through the loop body. -/
def organizeFold (dry_run : Bool) (oracle : Str → Option Str) (rootName : Str)
    (children : List Entry) : RunState :=
  (ensureFolders children).1.foldl (processItem dry_run oracle rootName)
    ⟨(ensureFolders children).1, (ensureFolders children).2, 0, 0⟩

/-- The destination name `organize_files` computes for a file of the given
name, including collision resolution. -/
def destOf (children : List Entry) (name : Str) : Str :=
  findAvailableDest (existsIn children (categoryOf name)) (stemOf name)
    (suffixOf name) ((contentsOf children (categoryOf name)).length + 2) name 1

/-- Projection: children of the root a run left behind (empty on crash). -/
def finalChildren (x : Except Str OrganizeResult) : List Entry :=
  match x with
  | .ok r => rootChildren r.root
  | .error _ => []

/-- Projection: last logged event of a run that did not crash. -/
def lastEvent (x : Except Str OrganizeResult) : Option Event :=
  x.toOption.bind fun r => r.events.getLast?

/-- Projection: the Python return value of a run that did not crash. -/
def runRetval (x : Except Str OrganizeResult) : Option (Option (Nat × Nat)) :=
  x.toOption.map (·.retval)

/-- Whether the run finished without an uncaught exception. -/
def runOk (x : Except Str OrganizeResult) : Bool :=
  match x with
  | .ok _ => true
  | .error _ => false

/-- Whether a directory entry of the given name is among the children. -/
def containsDirNamed (children : List Entry) (dn : Str) : Bool :=
  children.any fun e =>
    match e with
    | .dir m _ => decide (m = dn)
    | .file _ => false

/-- The decision the loop body takes for a child, independent of any
mutable state: `none` when the child is skipped (directory, hidden, or
already placed), otherwise the source-name / category pair of the move it
attempts or simulates. -/
def attemptedPair (rootName : Str) (e : Entry) : Option (Str × Str) :=
  match e with
  | .dir _ _ => none
  | .file n =>
    if startsWithDot n then none
    else if rootName = categoryOf n then none
    else some (n, categoryOf n)

/-! ### Classifier lemmas -/

theorem lowerCode_idem (n : Nat) : lowerCode (lowerCode n) = lowerCode n := by
  unfold lowerCode
  split
  · rw [if_neg (by omega)]
  · rfl

theorem pyLower_idem (s : Str) : pyLower (pyLower s) = pyLower s := by
  unfold pyLower
  rw [List.map_map]
  exact List.map_congr_left fun n _ => lowerCode_idem n

theorem buildIndex_inner (c : Str) (exts : List Str) (m : Str → Option Str)
    (x : Str) :
    (exts.foldl (fun m' e => fun y => if y = e then some c else m' y) m) x
      = if x ∈ exts then some c else m x := by
  induction exts generalizing m with
  | nil => simp
  | cons e rest ih =>
    rw [List.foldl_cons, ih]
    by_cases hx : x ∈ rest
    · simp [hx]
    · by_cases he : x = e <;> simp [hx, he]

theorem buildIndex_foldl (tbl : List (Str × List Str)) (m : Str → Option Str)
    (x : Str) :
    (tbl.foldl
        (fun m p => p.2.foldl (fun m' e => fun y => if y = e then some p.1 else m' y) m)
        m) x
      = ((tbl.reverse.find? fun p => decide (x ∈ p.2)).map Prod.fst).or (m x) := by
  induction tbl generalizing m with
  | nil => simp
  | cons p rest ih =>
    rw [List.foldl_cons, ih, List.reverse_cons, List.find?_append]
    cases hfind : rest.reverse.find? fun p => decide (x ∈ p.2) with
    | some q => simp
    | none =>
      rw [buildIndex_inner]
      by_cases hx : x ∈ p.2 <;> simp [hx]

theorem buildIndex_eq_find (tbl : List (Str × List Str)) (x : Str) :
    buildIndex tbl x
      = (tbl.reverse.find? fun p => decide (x ∈ p.2)).map Prod.fst := by
  have h := buildIndex_foldl tbl (fun _ => none) x
  unfold buildIndex
  rw [h, Option.or_none]

theorem extension_to_category_eq_find (x : Str) :
    extension_to_category x
      = (categories.reverse.find? fun p => decide (x ∈ p.2)).map Prod.fst :=
  buildIndex_eq_find categories x

theorem extension_to_category_mem {x c : Str}
    (h : extension_to_category x = some c) :
    ∃ p ∈ categories, p.1 = c ∧ x ∈ p.2 := by
  rw [extension_to_category_eq_find] at h
  cases hfind : categories.reverse.find? fun p => decide (x ∈ p.2) with
  | none => rw [hfind] at h; simp at h
  | some p =>
    rw [hfind] at h
    simp only [Option.map_some', Option.some.injEq] at h
    have hmem : p ∈ categories.reverse := List.mem_of_find?_eq_some hfind
    have hpred := List.find?_some hfind
    exact ⟨p, List.mem_reverse.mp hmem, h, of_decide_eq_true hpred⟩

theorem get_file_category_mem (e : Str) :
    ∃ p ∈ categories, p.1 = get_file_category e := by
  cases hx : extension_to_category (pyLower e) with
  | none =>
    refine ⟨(str "Others", []), by decide, ?_⟩
    rw [get_file_category, hx]
    rfl
  | some c =>
    obtain ⟨q, hq, hq1, _⟩ := extension_to_category_mem hx
    refine ⟨q, hq, ?_⟩
    rw [get_file_category, hx]
    exact hq1

theorem extension_to_category_absent {x : Str}
    (h : ∀ p ∈ categories, x ∉ p.2) : extension_to_category x = none := by
  rw [extension_to_category_eq_find, List.find?_eq_none.mpr, Option.map_none']
  intro p hp
  simp only [decide_eq_true_eq]
  exact h p (List.mem_reverse.mp hp)

/-- C1. The classifier is total over all string inputs and case-insensitive:
an extension listed in the table (up to lowercasing, which the lookup
applies) resolves to a category that lists it; an extension absent from the
table resolves to "Others"; lowercasing the input never changes the result;
and the result is always one of the table's category names. -/
theorem classifier_total_and_case_insensitive (e : Str) :
    ((∃ p ∈ categories, pyLower e ∈ p.2) →
      ∃ p ∈ categories, p.1 = get_file_category e ∧ pyLower e ∈ p.2) ∧
    ((∀ p ∈ categories, pyLower e ∉ p.2) → get_file_category e = str "Others") ∧
    get_file_category e = get_file_category (pyLower e) ∧
    (∃ p ∈ categories, p.1 = get_file_category e) := by
  have hlower : get_file_category e = get_file_category (pyLower e) := by
    unfold get_file_category
    rw [pyLower_idem]
  refine ⟨?_, ?_, hlower, ?_⟩
  · rintro ⟨p, hp, hmem⟩
    cases hx : extension_to_category (pyLower e) with
    | none =>
      exfalso
      rw [extension_to_category_eq_find] at hx
      cases hfind : categories.reverse.find? fun q => decide (pyLower e ∈ q.2) with
      | some q => rw [hfind] at hx; simp at hx
      | none =>
        have habs := List.find?_eq_none.mp hfind p (List.mem_reverse.mpr hp)
        simp only [decide_eq_true_eq] at habs
        exact habs hmem
    | some c =>
      obtain ⟨q, hq, hq1, hq2⟩ := extension_to_category_mem hx
      refine ⟨q, hq, ?_, hq2⟩
      rw [get_file_category, hx]
      exact hq1
  · intro habs
    rw [get_file_category, extension_to_category_absent habs]
    rfl
  · exact get_file_category_mem e

/-- Witness for C1 at concrete inputs: ".PDF" is present (as ".pdf") and
resolves to a category listing it, and the unknown empty extension falls
back to "Others". -/
theorem classifier_total_and_case_insensitive_witness :
    (∃ p ∈ categories, pyLower (str ".PDF") ∈ p.2 ∧ p.1 = get_file_category (str ".PDF")) ∧
    get_file_category (str "") = str "Others" := by
  refine ⟨?_, (classifier_total_and_case_insensitive (str "")).2.1 (by decide)⟩
  obtain ⟨p, hp, h1, h2⟩ :=
    (classifier_total_and_case_insensitive (str ".PDF")).1 (by decide)
  exact ⟨p, hp, h2, h1⟩

/-- C2. The reverse index maps each extension to the category of the last
table pair listing it (later category in table iteration order wins); in
particular ".xls"/".xlsx" are listed under both "Documents" and
"Spreadsheets" and resolve to "Spreadsheets", and ".ppt"/".pptx" are listed
under both "Documents" and "Presentations" and resolve to "Presentations". -/
theorem duplicate_extension_later_category_wins :
    (∀ (tbl : List (Str × List Str)) (x : Str),
      buildIndex tbl x
        = (tbl.reverse.find? fun p => decide (x ∈ p.2)).map Prod.fst) ∧
    (∃ p ∈ categories, p.1 = str "Documents" ∧ str ".xls" ∈ p.2 ∧ str ".xlsx" ∈ p.2
        ∧ str ".ppt" ∈ p.2 ∧ str ".pptx" ∈ p.2) ∧
    (∃ p ∈ categories, p.1 = str "Spreadsheets" ∧ str ".xls" ∈ p.2 ∧ str ".xlsx" ∈ p.2) ∧
    (∃ p ∈ categories, p.1 = str "Presentations" ∧ str ".ppt" ∈ p.2 ∧ str ".pptx" ∈ p.2) ∧
    get_file_category (str ".xls") = str "Spreadsheets" ∧
    get_file_category (str ".xlsx") = str "Spreadsheets" ∧
    get_file_category (str ".ppt") = str "Presentations" ∧
    get_file_category (str ".pptx") = str "Presentations" := by
  exact ⟨buildIndex_eq_find, by decide, by decide, by decide,
    by decide, by decide, by decide, by decide⟩

/-! ### Collision resolution -/

theorem natDigitsAux_eq_digits :
    ∀ fuel n, n ≤ fuel → natDigitsAux fuel n = Nat.digits 10 n := by
  intro fuel
  induction fuel with
  | zero =>
    intro n h
    have hn : n = 0 := by omega
    subst hn
    simp [natDigitsAux]
  | succ f ih =>
    intro n h
    match n with
    | 0 => simp [natDigitsAux]
    | n + 1 =>
      have hdiv : (n + 1) / 10 ≤ f := by
        have := Nat.div_lt_self (Nat.succ_pos n) (by norm_num : 1 < 10)
        omega
      rw [show natDigitsAux (f + 1) (n + 1)
            = ((n + 1) % 10) :: natDigitsAux f ((n + 1) / 10) from rfl,
        ih _ hdiv,
        Nat.digits_def' (by norm_num : (1 : Nat) < 10) (Nat.succ_pos n)]

theorem natStr_injective : Function.Injective natStr := by
  intro a b h
  unfold natStr at h
  rw [natDigitsAux_eq_digits a a le_rfl, natDigitsAux_eq_digits b b le_rfl] at h
  have hinj : Function.Injective (fun d : Nat => d + 48) :=
    fun x y hxy => Nat.add_right_cancel hxy
  have h2 := List.map_injective_iff.mpr hinj h
  have h3 := List.reverse_injective h2
  calc a = Nat.ofDigits 10 (Nat.digits 10 a) := (Nat.ofDigits_digits 10 a).symm
    _ = Nat.ofDigits 10 (Nat.digits 10 b) := by rw [h3]
    _ = b := Nat.ofDigits_digits 10 b

theorem candidateName_injective (stem sfx : Str) :
    Function.Injective (candidateName stem sfx) := by
  intro a b h
  unfold candidateName at h
  have h1 := List.append_cancel_right h
  have h2 := List.append_cancel_left h1
  exact natStr_injective h2

theorem exists_free_candidate (contents : List Str) (stem sfx : Str) :
    ∃ j, 1 ≤ j ∧ j ≤ contents.length + 1 ∧ candidateName stem sfx j ∉ contents := by
  by_contra hcon
  push_neg at hcon
  have hmap : ∀ i : Fin (contents.length + 1),
      candidateName stem sfx (i.1 + 1) ∈ contents.toFinset := by
    intro i
    rw [List.mem_toFinset]
    exact hcon _ (by omega) (by omega)
  have hinj : Function.Injective fun i : Fin (contents.length + 1) =>
      candidateName stem sfx (i.1 + 1) := by
    intro i j hij
    have h := candidateName_injective stem sfx hij
    exact Fin.ext (by omega)
  have hcard := @Finset.card_le_card_of_injOn (Fin (contents.length + 1)) Str
    Finset.univ contents.toFinset (fun i => candidateName stem sfx (i.1 + 1))
    (fun i _ => hmap i) hinj.injOn
  rw [Finset.card_univ, Fintype.card_fin] at hcard
  have hlen := List.toFinset_card_le contents
  omega

theorem findAvailableDest_not_ex (ex : Str → Bool) (stem sfx : Str)
    (fuel : Nat) (dest : Str) (counter : Nat)
    (h : ex dest = false) (hf : 0 < fuel) :
    findAvailableDest ex stem sfx fuel dest counter = dest := by
  match fuel with
  | f + 1 => simp [findAvailableDest, h]

theorem findAvailableDest_reaches (ex : Str → Bool) (stem sfx : Str) (j : Nat)
    (hj : ex (candidateName stem sfx j) = false) :
    ∀ fuel counter dest, ex dest = true → counter ≤ j →
      (∀ i, counter ≤ i → i < j → ex (candidateName stem sfx i) = true) →
      j + 2 ≤ fuel + counter →
      findAvailableDest ex stem sfx fuel dest counter
        = candidateName stem sfx j := by
  intro fuel
  induction fuel with
  | zero => intro counter dest _ h1 _ h2; omega
  | succ f ih =>
    intro counter dest hdest hcj hall hfuel
    simp only [findAvailableDest, hdest, if_true]
    by_cases hcq : counter = j
    · subst hcq
      exact findAvailableDest_not_ex ex stem sfx f _ (counter + 1) hj (by omega)
    · exact ih (counter + 1) _ (hall counter le_rfl (by omega)) (by omega)
        (fun i h1 h2 => hall i (by omega) h2) (by omega)

theorem existsIn_eq_mem_contentsOf (children : List Entry) (category n : Str) :
    existsIn children category n = decide (n ∈ contentsOf children category) := by
  unfold existsIn contentsOf
  cases lookupEntry children category with
  | none => simp
  | some e => cases e <;> simp

theorem resolve_spec (contents : List Str) (name : Str) :
    (findAvailableDest (fun n => decide (n ∈ contents)) (stemOf name)
        (suffixOf name) (contents.length + 2) name 1) ∉ contents ∧
    (name ∉ contents →
      findAvailableDest (fun n => decide (n ∈ contents)) (stemOf name)
        (suffixOf name) (contents.length + 2) name 1 = name) ∧
    (name ∈ contents → ∃ k, 1 ≤ k ∧
      findAvailableDest (fun n => decide (n ∈ contents)) (stemOf name)
        (suffixOf name) (contents.length + 2) name 1
        = candidateName (stemOf name) (suffixOf name) k ∧
      candidateName (stemOf name) (suffixOf name) k ∉ contents ∧
      ∀ i, 1 ≤ i → i < k → candidateName (stemOf name) (suffixOf name) i ∈ contents) := by
  by_cases hname : name ∈ contents
  · have hex : ∃ j, 1 ≤ j ∧ candidateName (stemOf name) (suffixOf name) j ∉ contents := by
      obtain ⟨j, h1, _, h3⟩ := exists_free_candidate contents (stemOf name) (suffixOf name)
      exact ⟨j, h1, h3⟩
    have hbound : Nat.find hex ≤ contents.length + 1 := by
      obtain ⟨j, h1, h2, h3⟩ := exists_free_candidate contents (stemOf name) (suffixOf name)
      exact le_trans (Nat.find_min' hex ⟨h1, h3⟩) h2
    obtain ⟨hge1, hfree⟩ := Nat.find_spec hex
    have hmin : ∀ i, 1 ≤ i → i < Nat.find hex →
        candidateName (stemOf name) (suffixOf name) i ∈ contents := by
      intro i h1 h2
      have := Nat.find_min hex h2
      by_contra hni
      exact this ⟨h1, hni⟩
    have hrun := findAvailableDest_reaches (fun n => decide (n ∈ contents))
      (stemOf name) (suffixOf name) (Nat.find hex)
      (decide_eq_false hfree) (contents.length + 2) 1 name
      (decide_eq_true hname) hge1
      (fun i h1 h2 => decide_eq_true (hmin i h1 h2)) (by omega)
    refine ⟨?_, fun h => absurd hname h, fun _ => ⟨Nat.find hex, hge1, hrun, hfree, hmin⟩⟩
    rw [hrun]
    exact hfree
  · have hrun := findAvailableDest_not_ex (fun n => decide (n ∈ contents))
      (stemOf name) (suffixOf name) (contents.length + 2) name 1
      (decide_eq_false hname) (by omega)
    rw [hrun]
    exact ⟨hname, fun _ => rfl, fun h => absurd h hname⟩

/-- The two-same-named-files scenario of the specification: the category
folder already holds a file of the moved file's name. -/
def conflictScenario : RootPath :=
  .dir (str "Downloads")
    [.dir (str "Documents") [str "report.pdf"], .file (str "report.pdf")]

/-- C3. Collision resolution: the destination actually used never exists at
check time; an unused destination keeps its name; a taken destination is
replaced by the first free candidate stem_k suffix with the counter k
starting at 1 and increasing while candidates exist, for every directory
content whatsoever; and in the concrete two-same-named-files scenario both
files end up under "Documents" with distinct names, neither overwritten. -/
theorem collision_resolution_correct :
    (∀ (children : List Entry) (category name : Str),
      (existsIn children category
          (findAvailableDest (existsIn children category) (stemOf name)
            (suffixOf name) ((contentsOf children category).length + 2) name 1)
        = false) ∧
      (existsIn children category name = false →
        findAvailableDest (existsIn children category) (stemOf name)
          (suffixOf name) ((contentsOf children category).length + 2) name 1
          = name) ∧
      (existsIn children category name = true → ∃ k, 1 ≤ k ∧
        findAvailableDest (existsIn children category) (stemOf name)
          (suffixOf name) ((contentsOf children category).length + 2) name 1
          = candidateName (stemOf name) (suffixOf name) k ∧
        existsIn children category
          (candidateName (stemOf name) (suffixOf name) k) = false ∧
        ∀ i, 1 ≤ i → i < k →
          existsIn children category
            (candidateName (stemOf name) (suffixOf name) i) = true)) ∧
    (organize_files false (fun _ => none) conflictScenario).toOption.map
        (fun r => (contentsOf (rootChildren r.root) (str "Documents"),
          lookupEntry (rootChildren r.root) (str "report.pdf"), r.moved, r.skipped))
      = some ([str "report.pdf", str "report_1.pdf"], none, 1, 0) := by
  refine ⟨fun children category name => ?_, by decide⟩
  have hfun : existsIn children category
      = fun n => decide (n ∈ contentsOf children category) :=
    funext (existsIn_eq_mem_contentsOf children category)
  obtain ⟨h1, h2, h3⟩ := resolve_spec (contentsOf children category) name
  rw [hfun]
  simp only [decide_eq_true_eq, decide_eq_false_iff_not]
  refine ⟨h1, fun h => h2 h, fun h => ?_⟩
  obtain ⟨k, hk1, hk2, hk3, hk4⟩ := h3 h
  exact ⟨k, hk1, hk2, hk3, fun i hi1 hi2 => hk4 i hi1 hi2⟩

/-- Witness for C3: an empty "Documents" folder leaves the destination
name "report.pdf" untouched. -/
theorem collision_resolution_correct_witness :
    existsIn [Entry.dir (str "Documents") []] (str "Documents")
      (str "report.pdf") = false ∧
    findAvailableDest
        (existsIn [Entry.dir (str "Documents") []] (str "Documents"))
        (stemOf (str "report.pdf")) (suffixOf (str "report.pdf"))
        ((contentsOf [Entry.dir (str "Documents") []]
            (str "Documents")).length + 2)
        (str "report.pdf") 1
      = str "report.pdf" :=
  ⟨by decide,
    (collision_resolution_correct.1 [Entry.dir (str "Documents") []]
      (str "Documents") (str "report.pdf")).2.1 (by decide)⟩

/-! ### Branch equations for the loop body -/

theorem processItem_dir_eq (dry : Bool) (orc : Str → Option Str) (rn : Str)
    (rs : RunState) (n : Str) (c : List Str) :
    processItem dry orc rn rs (.dir n c) = rs := rfl

theorem processItem_hidden_eq (dry : Bool) (orc : Str → Option Str) (rn : Str)
    (rs : RunState) (n : Str) (h : startsWithDot n = true) :
    processItem dry orc rn rs (.file n) = rs := by
  simp [processItem, h]

theorem processItem_placed_eq (dry : Bool) (orc : Str → Option Str) (rn : Str)
    (rs : RunState) (n : Str) (h : rn = categoryOf n) :
    processItem dry orc rn rs (.file n) = rs := by
  by_cases hh : startsWithDot n <;> simp [processItem, hh, h]

theorem processItem_dry_eq (orc : Str → Option Str) (rn : Str)
    (rs : RunState) (n : Str) (h1 : startsWithDot n = false)
    (h2 : ¬rn = categoryOf n) :
    processItem true orc rn rs (.file n)
      = { rs with events := rs.events ++ [.wouldMove n (categoryOf n)] } := by
  simp [processItem, h1, h2]

theorem processItem_moveOk_eq (orc : Str → Option Str) (rn : Str)
    (rs : RunState) (n : Str) (h1 : startsWithDot n = false)
    (h2 : ¬rn = categoryOf n)
    (h3 : moveFailure rs.children (categoryOf n) n orc = none) :
    processItem false orc rn rs (.file n)
      = { children := moveFile rs.children (categoryOf n) n (destOf rs.children n),
          events := rs.events ++ [.moved n (categoryOf n)],
          moved := rs.moved + 1, skipped := rs.skipped } := by
  simp [processItem, destOf, h1, h2, h3]

theorem processItem_moveFail_eq (orc : Str → Option Str) (rn : Str)
    (rs : RunState) (n cause : Str) (h1 : startsWithDot n = false)
    (h2 : ¬rn = categoryOf n)
    (h3 : moveFailure rs.children (categoryOf n) n orc = some cause) :
    processItem false orc rn rs (.file n)
      = { rs with
          events := rs.events ++ [.errorMoving n cause],
          skipped := rs.skipped + 1 } := by
  simp [processItem, h1, h2, h3]

/-- A child the loop body skips without any action: a directory, a hidden
name, or a file already in a folder whose name is its category. -/
def skipCase (rn : Str) (e : Entry) : Prop :=
  match e with
  | .dir _ _ => True
  | .file n => startsWithDot n = true ∨ rn = categoryOf n

theorem processItem_skipCase (dry : Bool) (orc : Str → Option Str) (rn : Str)
    (rs : RunState) (e : Entry) (h : skipCase rn e) :
    processItem dry orc rn rs e = rs := by
  match e with
  | .dir n c => rfl
  | .file n =>
    rcases h with h | h
    · exact processItem_hidden_eq dry orc rn rs n h
    · exact processItem_placed_eq dry orc rn rs n h

theorem foldl_skipCase (dry : Bool) (orc : Str → Option Str) (rn : Str) :
    ∀ (items : List Entry) (st : RunState), (∀ e ∈ items, skipCase rn e) →
      items.foldl (processItem dry orc rn) st = st := by
  intro items
  induction items with
  | nil => exact fun st _ => rfl
  | cons it rest ih =>
    intro st h
    rw [List.foldl_cons,
      processItem_skipCase dry orc rn st it (h it (List.mem_cons_self it rest))]
    exact ih st fun e he => h e (List.mem_cons_of_mem it he)

theorem processItem_skipped_le (dry : Bool) (orc : Str → Option Str) (rn : Str)
    (rs : RunState) (e : Entry) :
    rs.skipped ≤ (processItem dry orc rn rs e).skipped := by
  match e with
  | .dir n c => exact le_rfl
  | .file n =>
    by_cases h1 : startsWithDot n
    · rw [processItem_hidden_eq dry orc rn rs n h1]
    · have h1f : startsWithDot n = false := by simpa using h1
      by_cases h2 : rn = categoryOf n
      · rw [processItem_placed_eq dry orc rn rs n h2]
      · match dry with
        | true => rw [processItem_dry_eq orc rn rs n h1f h2]
        | false =>
          cases h3 : moveFailure rs.children (categoryOf n) n orc with
          | none => rw [processItem_moveOk_eq orc rn rs n h1f h2 h3]
          | some cause =>
            rw [processItem_moveFail_eq orc rn rs n cause h1f h2 h3]
            exact Nat.le_succ _

theorem foldl_skipped_le (dry : Bool) (orc : Str → Option Str) (rn : Str) :
    ∀ (items : List Entry) (st : RunState),
      st.skipped ≤ (items.foldl (processItem dry orc rn) st).skipped := by
  intro items
  induction items with
  | nil => exact fun st => le_rfl
  | cons it rest ih =>
    intro st
    rw [List.foldl_cons]
    exact le_trans (processItem_skipped_le dry orc rn st it) (ih _)

/-! ### What a successful move does to the children -/

theorem mem_moveFile_file {children : List Entry} {cat m d n : Str}
    (h : Entry.file n ∈ moveFile children cat m d) :
    Entry.file n ∈ children ∧ n ≠ m := by
  unfold moveFile at h
  obtain ⟨e, he, hmap⟩ := List.mem_map.mp h
  obtain ⟨he1, he2⟩ := List.mem_filter.mp he
  match e with
  | .file q =>
    have hq : q = n := by
      simpa [Entry.file.injEq] using hmap
    subst hq
    refine ⟨he1, ?_⟩
    simpa using he2
  | .dir q c =>
    exfalso
    by_cases hq : q = cat <;> simp [hq] at hmap

theorem mem_moveFile_of_file {children : List Entry} {cat m d n : Str}
    (hn : Entry.file n ∈ children) (hne : n ≠ m) :
    Entry.file n ∈ moveFile children cat m d := by
  unfold moveFile
  refine List.mem_map.mpr ⟨.file n, List.mem_filter.mpr ⟨hn, ?_⟩, rfl⟩
  simpa using hne

theorem mem_moveFile_dir {children : List Entry} {cat m d dn : Str}
    {dc : List Str} (h : Entry.dir dn dc ∈ children) :
    Entry.dir dn (if dn = cat then dc ++ [d] else dc) ∈ moveFile children cat m d := by
  unfold moveFile
  refine List.mem_map.mpr ⟨.dir dn dc, List.mem_filter.mpr ⟨h, rfl⟩, ?_⟩
  by_cases hdc : dn = cat <;> simp [hdc]

/-! ### Lookup and the category directories -/

theorem lookupEntry_mem {children : List Entry} {n : Str} {e : Entry}
    (h : lookupEntry children n = some e) :
    e ∈ children ∧ Entry.name e = n := by
  rw [lookupEntry] at h
  have h2 := List.find?_some h
  simp only [decide_eq_true_eq] at h2
  exact ⟨List.mem_of_find?_eq_some h, h2⟩

/-- The path root/c denotes a directory, whatever entry order resolution
uses: some child bears the name c and every child of that name is a
directory. -/
def dirOnly (children : List Entry) (c : Str) : Prop :=
  (∃ e ∈ children, Entry.name e = c) ∧
  (∀ e ∈ children, Entry.name e = c → ∃ dc, e = Entry.dir c dc)

theorem dirOnly_lookup {children : List Entry} {c : Str} (h : dirOnly children c) :
    ∃ dc, lookupEntry children c = some (Entry.dir c dc) := by
  obtain ⟨⟨e0, he0, hn0⟩, hall⟩ := h
  have hsome : (lookupEntry children c).isSome := by
    rw [lookupEntry, List.find?_isSome]
    exact ⟨e0, he0, decide_eq_true hn0⟩
  obtain ⟨e, he⟩ := Option.isSome_iff_exists.mp hsome
  obtain ⟨hmem, hname⟩ := lookupEntry_mem he
  obtain ⟨dc, rfl⟩ := hall e hmem hname
  exact ⟨dc, he⟩

theorem dirOnly_moveFile {children : List Entry} {cat m d c : Str}
    (h : dirOnly children c) : dirOnly (moveFile children cat m d) c := by
  obtain ⟨⟨e0, he0, hn0⟩, hall⟩ := h
  constructor
  · obtain ⟨dc, rfl⟩ := hall e0 he0 hn0
    exact ⟨_, mem_moveFile_dir he0, rfl⟩
  · intro e' he' hn'
    unfold moveFile at he'
    obtain ⟨e, he, hmap⟩ := List.mem_map.mp he'
    obtain ⟨he1, _⟩ := List.mem_filter.mp he
    match e with
    | .file q =>
      have hq : e' = Entry.file q := hmap.symm
      subst hq
      obtain ⟨dc, hdc⟩ := hall (.file q) he1 hn'
      cases hdc
    | .dir q dc =>
      have hmap' : (if q = cat then Entry.dir q (dc ++ [d]) else Entry.dir q dc) = e' :=
        hmap
      by_cases hq : q = cat
      · rw [if_pos hq] at hmap'
        have hq' : e' = Entry.dir q (dc ++ [d]) := hmap'.symm
        subst hq'
        exact ⟨dc ++ [d], by rw [show q = c from hn']⟩
      · rw [if_neg hq] at hmap'
        have hq' : e' = Entry.dir q dc := hmap'.symm
        subst hq'
        exact ⟨dc, by rw [show q = c from hn']⟩

theorem moveFailure_none {children : List Entry} {cat m : Str}
    {orc : Str → Option Str} (ho : orc m = none) (h : dirOnly children cat) :
    moveFailure children cat m orc = none := by
  obtain ⟨dc, hdc⟩ := dirOnly_lookup h
  unfold moveFailure
  rw [ho, hdc]

/-! ### Preservation of untouched children across the loop -/

theorem processItem_preserves_file (dry : Bool) (orc : Str → Option Str)
    (rn : Str) (rs : RunState) (e : Entry) (n : Str)
    (hn : Entry.file n ∈ rs.children) (hs : skipCase rn (Entry.file n)) :
    Entry.file n ∈ (processItem dry orc rn rs e).children := by
  match e with
  | .dir _ _ => exact hn
  | .file m =>
    by_cases h1 : startsWithDot m
    · rw [processItem_hidden_eq dry orc rn rs m h1]; exact hn
    · have h1f : startsWithDot m = false := by simpa using h1
      by_cases h2 : rn = categoryOf m
      · rw [processItem_placed_eq dry orc rn rs m h2]; exact hn
      · match dry with
        | true => rw [processItem_dry_eq orc rn rs m h1f h2]; exact hn
        | false =>
          cases h3 : moveFailure rs.children (categoryOf m) m orc with
          | some cause =>
            rw [processItem_moveFail_eq orc rn rs m cause h1f h2 h3]; exact hn
          | none =>
            rw [processItem_moveOk_eq orc rn rs m h1f h2 h3]
            refine mem_moveFile_of_file hn ?_
            rintro rfl
            rcases hs with hs | hs
            · rw [hs] at h1f; cases h1f
            · exact h2 hs

theorem foldl_preserves_file (dry : Bool) (orc : Str → Option Str) (rn : Str) :
    ∀ (items : List Entry) (st : RunState) (n : Str),
      Entry.file n ∈ st.children → skipCase rn (Entry.file n) →
      Entry.file n ∈ (items.foldl (processItem dry orc rn) st).children := by
  intro items
  induction items with
  | nil => exact fun st n h _ => h
  | cons it rest ih =>
    intro st n hn hs
    rw [List.foldl_cons]
    exact ih _ n (processItem_preserves_file dry orc rn st it n hn hs) hs

theorem processItem_preserves_dirName (dry : Bool) (orc : Str → Option Str)
    (rn : Str) (rs : RunState) (e : Entry) (dn : Str)
    (h : containsDirNamed rs.children dn = true) :
    containsDirNamed (processItem dry orc rn rs e).children dn = true := by
  obtain ⟨e0, he0, hp⟩ := List.any_eq_true.mp h
  match e0 with
  | .file _ => cases hp
  | .dir q c =>
    have hq : q = dn := of_decide_eq_true hp
    subst hq
    match e with
    | .dir _ _ => exact h
    | .file m =>
      by_cases h1 : startsWithDot m
      · rw [processItem_hidden_eq dry orc rn rs m h1]; exact h
      · have h1f : startsWithDot m = false := by simpa using h1
        by_cases h2 : rn = categoryOf m
        · rw [processItem_placed_eq dry orc rn rs m h2]; exact h
        · match dry with
          | true => rw [processItem_dry_eq orc rn rs m h1f h2]; exact h
          | false =>
            cases h3 : moveFailure rs.children (categoryOf m) m orc with
            | some cause =>
              rw [processItem_moveFail_eq orc rn rs m cause h1f h2 h3]; exact h
            | none =>
              rw [processItem_moveOk_eq orc rn rs m h1f h2 h3]
              exact List.any_eq_true.mpr
                ⟨_, mem_moveFile_dir he0, decide_eq_true rfl⟩

theorem foldl_preserves_dirName (dry : Bool) (orc : Str → Option Str) (rn : Str) :
    ∀ (items : List Entry) (st : RunState) (dn : Str),
      containsDirNamed st.children dn = true →
      containsDirNamed (items.foldl (processItem dry orc rn) st).children dn = true := by
  intro items
  induction items with
  | nil => exact fun st dn h => h
  | cons it rest ih =>
    intro st dn h
    rw [List.foldl_cons]
    exact ih _ dn (processItem_preserves_dirName dry orc rn st it dn h)

/-! ### The shape of a run on an existing directory -/

theorem organize_files_dir (dry : Bool) (orc : Str → Option Str) (rn : Str)
    (ch : List Entry) :
    organize_files dry orc (.dir rn ch)
      = .ok ⟨.dir rn (organizeFold dry orc rn ch).children,
             (organizeFold dry orc rn ch).events
               ++ [.summary (organizeFold dry orc rn ch).moved
                     (organizeFold dry orc rn ch).skipped],
             none, (organizeFold dry orc rn ch).moved,
             (organizeFold dry orc rn ch).skipped⟩ := rfl

/-! ### Folder creation lemmas -/

theorem ensure_go_append (cats : List (Str × List Str)) :
    ∀ (acc : List Entry × List Event),
      ∃ extra, (cats.foldl
          (fun acc p =>
            if (lookupEntry acc.1 p.1).isSome then acc
            else (acc.1 ++ [.dir p.1 []], acc.2 ++ [.createdFolder p.1]))
          acc).1 = acc.1 ++ extra ∧
        ∀ e ∈ extra, ∃ p ∈ cats, e = Entry.dir p.1 [] := by
  induction cats with
  | nil => exact fun acc => ⟨[], by simp⟩
  | cons p rest ih =>
    intro acc
    rw [List.foldl_cons]
    by_cases hl : (lookupEntry acc.1 p.1).isSome
    · obtain ⟨extra, h1, h2⟩ := ih acc
      rw [if_pos hl] at *
      exact ⟨extra, h1, fun e he => by
        obtain ⟨q, hq, he'⟩ := h2 e he
        exact ⟨q, List.mem_cons_of_mem p hq, he'⟩⟩
    · obtain ⟨extra, h1, h2⟩ := ih (acc.1 ++ [.dir p.1 []], acc.2 ++ [.createdFolder p.1])
      rw [if_neg hl]
      refine ⟨Entry.dir p.1 [] :: extra, ?_, ?_⟩
      · rw [h1]; simp
      · intro e he
        rcases List.mem_cons.mp he with rfl | he'
        · exact ⟨p, List.mem_cons_self p rest, rfl⟩
        · obtain ⟨q, hq, he''⟩ := h2 e he'
          exact ⟨q, List.mem_cons_of_mem p hq, he''⟩

theorem ensureFolders_append (ch : List Entry) :
    ∃ extra, (ensureFolders ch).1 = ch ++ extra ∧
      ∀ e ∈ extra, ∃ p ∈ categories, e = Entry.dir p.1 [] :=
  ensure_go_append categories (ch, [])

theorem ensure_go_named (cats : List (Str × List Str)) :
    ∀ (acc : List Entry × List Event) (q : Str × List Str), q ∈ cats →
      ∃ e ∈ (cats.foldl
          (fun acc p =>
            if (lookupEntry acc.1 p.1).isSome then acc
            else (acc.1 ++ [.dir p.1 []], acc.2 ++ [.createdFolder p.1]))
          acc).1, Entry.name e = q.1 := by
  induction cats with
  | nil => intro acc q hq; cases hq
  | cons p rest ih =>
    intro acc q hq
    rw [List.foldl_cons]
    rcases List.mem_cons.mp hq with rfl | hq'
    · by_cases hl : (lookupEntry acc.1 q.1).isSome
      · rw [if_pos hl]
        obtain ⟨e, he⟩ := Option.isSome_iff_exists.mp hl
        obtain ⟨hmem, hname⟩ := lookupEntry_mem he
        obtain ⟨extra, h1, _⟩ := ensure_go_append rest acc
        exact ⟨e, h1 ▸ List.mem_append_left extra hmem, hname⟩
      · rw [if_neg hl]
        obtain ⟨extra, h1, _⟩ :=
          ensure_go_append rest (acc.1 ++ [.dir q.1 []], acc.2 ++ [.createdFolder q.1])
        refine ⟨Entry.dir q.1 [], ?_, rfl⟩
        rw [h1]
        exact List.mem_append_left extra (List.mem_append_right acc.1 (by simp))
    · exact ih _ q hq'

theorem ensureFolders_named (ch : List Entry) (q : Str × List Str)
    (hq : q ∈ categories) :
    ∃ e ∈ (ensureFolders ch).1, Entry.name e = q.1 :=
  ensure_go_named categories (ch, []) q hq

theorem organizeFold_preserves_file (dry : Bool) (orc : Str → Option Str)
    (rn : Str) (ch : List Entry) (n : Str)
    (hmem : Entry.file n ∈ ch) (hs : skipCase rn (Entry.file n)) :
    Entry.file n ∈ (organizeFold dry orc rn ch).children := by
  unfold organizeFold
  obtain ⟨extra, h1, _⟩ := ensureFolders_append ch
  rw [h1]
  exact foldl_preserves_file dry orc rn (ch ++ extra)
    ⟨ch ++ extra, (ensureFolders ch).2, 0, 0⟩ n
    (List.mem_append_left extra hmem) hs

theorem organizeFold_preserves_dirName (dry : Bool) (orc : Str → Option Str)
    (rn : Str) (ch : List Entry) (dn : Str) (dc : List Str)
    (hmem : Entry.dir dn dc ∈ ch) :
    containsDirNamed (organizeFold dry orc rn ch).children dn = true := by
  unfold organizeFold
  obtain ⟨extra, h1, _⟩ := ensureFolders_append ch
  rw [h1]
  exact foldl_preserves_dirName dry orc rn (ch ++ extra)
    ⟨ch ++ extra, (ensureFolders ch).2, 0, 0⟩ dn
    (List.any_eq_true.mpr
      ⟨Entry.dir dn dc, List.mem_append_left extra hmem, decide_eq_true rfl⟩)

/-- C9. Hidden-file and directory exclusion: the loop body leaves the run
state untouched for a directory child and for a hidden-named file child
(no move, no classification effect, no counter or event change), and after
a whole run any hidden file of the root is still a child of the root and
any directory child's name still names a directory child. -/
theorem hidden_and_directory_exclusion :
    (∀ (dry : Bool) (orc : Str → Option Str) (rn : Str) (rs : RunState)
        (n : Str) (c : List Str),
      processItem dry orc rn rs (.dir n c) = rs) ∧
    (∀ (dry : Bool) (orc : Str → Option Str) (rn : Str) (rs : RunState) (n : Str),
      startsWithDot n = true → processItem dry orc rn rs (.file n) = rs) ∧
    (∀ (dry : Bool) (orc : Str → Option Str) (rn : Str) (ch : List Entry) (n : Str),
      startsWithDot n = true → Entry.file n ∈ ch →
      Entry.file n ∈ finalChildren (organize_files dry orc (.dir rn ch))) ∧
    (∀ (dry : Bool) (orc : Str → Option Str) (rn : Str) (ch : List Entry)
        (dn : Str) (dc : List Str),
      Entry.dir dn dc ∈ ch →
      containsDirNamed (finalChildren (organize_files dry orc (.dir rn ch))) dn
        = true) := by
  refine ⟨processItem_dir_eq, processItem_hidden_eq, ?_, ?_⟩
  · intro dry orc rn ch n hhid hmem
    rw [organize_files_dir]
    simp only [finalChildren, rootChildren]
    exact organizeFold_preserves_file dry orc rn ch n hmem (Or.inl hhid)
  · intro dry orc rn ch dn dc hmem
    rw [organize_files_dir]
    simp only [finalChildren, rootChildren]
    exact organizeFold_preserves_dirName dry orc rn ch dn dc hmem

/-- Witness for C9 at a concrete root holding ".env" and a directory. -/
theorem hidden_and_directory_exclusion_witness :
    startsWithDot (str ".env") = true ∧
    processItem false noFailures (str "Downloads") ⟨[], [], 0, 0⟩
      (.file (str ".env")) = ⟨[], [], 0, 0⟩ ∧
    Entry.file (str ".env") ∈ finalChildren (organize_files false noFailures
      (.dir (str "Downloads")
        [Entry.file (str ".env"), Entry.dir (str "stuff") []])) ∧
    containsDirNamed (finalChildren (organize_files false noFailures
      (.dir (str "Downloads")
        [Entry.file (str ".env"), Entry.dir (str "stuff") []]))) (str "stuff")
      = true :=
  ⟨by decide,
   hidden_and_directory_exclusion.2.1 false noFailures (str "Downloads")
     ⟨[], [], 0, 0⟩ (str ".env") (by decide),
   hidden_and_directory_exclusion.2.2.1 false noFailures (str "Downloads")
     [Entry.file (str ".env"), Entry.dir (str "stuff") []] (str ".env")
     (by decide) (by decide),
   hidden_and_directory_exclusion.2.2.2 false noFailures (str "Downloads")
     [Entry.file (str ".env"), Entry.dir (str "stuff") []] (str "stuff") []
     (by decide)⟩

/-- C10. The already-placed check compares the category with the root's
own base name: the loop body does nothing to a file whose category equals
the root name, and after a whole run on a root named like the file's
category the file is still a direct child of the root, not moved into a
category subfolder. -/
theorem root_named_as_category_blocks_placement :
    (∀ (dry : Bool) (orc : Str → Option Str) (rs : RunState) (n : Str),
      processItem dry orc (categoryOf n) rs (.file n) = rs) ∧
    (∀ (dry : Bool) (orc : Str → Option Str) (ch : List Entry) (n : Str),
      Entry.file n ∈ ch →
      Entry.file n ∈ finalChildren
        (organize_files dry orc (.dir (categoryOf n) ch))) := by
  constructor
  · intro dry orc rs n
    exact processItem_placed_eq dry orc (categoryOf n) rs n rfl
  · intro dry orc ch n hmem
    rw [organize_files_dir]
    simp only [finalChildren, rootChildren]
    exact organizeFold_preserves_file dry orc (categoryOf n) ch n hmem (Or.inr rfl)

/-- Witness for C10: a root named "Documents" keeps "a.pdf" in place. -/
theorem root_named_as_category_blocks_placement_witness :
    categoryOf (str "a.pdf") = str "Documents" ∧
    Entry.file (str "a.pdf") ∈ finalChildren (organize_files false noFailures
      (.dir (categoryOf (str "a.pdf")) [Entry.file (str "a.pdf")])) :=
  ⟨by decide,
   root_named_as_category_blocks_placement.2 false noFailures
     [Entry.file (str "a.pdf")] (str "a.pdf") (by decide)⟩

/-! ### Idempotence machinery -/

theorem foldl_no_skip_leftover (orc : Str → Option Str) (rn : Str) :
    ∀ (items : List Entry) (st : RunState),
      (items.foldl (processItem false orc rn) st).skipped = st.skipped →
      ∀ n, Entry.file n ∈ (items.foldl (processItem false orc rn) st).children →
        Entry.file n ∈ st.children ∧
        (Entry.file n ∈ items → skipCase rn (Entry.file n)) := by
  intro items
  induction items with
  | nil => exact fun st _ n h => ⟨h, fun hmem => absurd hmem (List.not_mem_nil _)⟩
  | cons it rest ih =>
    intro st hsk n hn
    rw [List.foldl_cons] at hsk hn
    match it with
    | .dir q c =>
      rw [processItem_dir_eq] at hsk hn
      obtain ⟨ha, hb⟩ := ih st hsk n hn
      refine ⟨ha, fun hm => ?_⟩
      rcases List.mem_cons.mp hm with heq | hm'
      · exact Entry.noConfusion heq
      · exact hb hm'
    | .file m =>
      by_cases hh : startsWithDot m
      · rw [processItem_hidden_eq false orc rn st m hh] at hsk hn
        obtain ⟨ha, hb⟩ := ih st hsk n hn
        refine ⟨ha, fun hm => ?_⟩
        rcases List.mem_cons.mp hm with heq | hm'
        · injection heq with hnm
          subst hnm
          exact Or.inl hh
        · exact hb hm'
      · have hhf : startsWithDot m = false := by simpa using hh
        by_cases hp : rn = categoryOf m
        · rw [processItem_placed_eq false orc rn st m hp] at hsk hn
          obtain ⟨ha, hb⟩ := ih st hsk n hn
          refine ⟨ha, fun hm => ?_⟩
          rcases List.mem_cons.mp hm with heq | hm'
          · injection heq with hnm
            subst hnm
            exact Or.inr hp
          · exact hb hm'
        · cases hmf : moveFailure st.children (categoryOf m) m orc with
          | none =>
            rw [processItem_moveOk_eq orc rn st m hhf hp hmf] at hsk hn
            obtain ⟨ha, hb⟩ := ih _ hsk n hn
            have ha' : Entry.file n
                ∈ moveFile st.children (categoryOf m) m (destOf st.children m) := ha
            obtain ⟨hmem, hne⟩ := mem_moveFile_file ha'
            refine ⟨hmem, fun hm => ?_⟩
            rcases List.mem_cons.mp hm with heq | hm'
            · injection heq with hnm
              exact absurd hnm hne
            · exact hb hm'
          | some cause =>
            exfalso
            rw [processItem_moveFail_eq orc rn st m cause hhf hp hmf] at hsk
            have h2 := foldl_skipped_le false orc rn rest
              { st with
                events := st.events ++ [.errorMoving m cause],
                skipped := st.skipped + 1 }
            have h2' : st.skipped + 1
                ≤ (rest.foldl (processItem false orc rn)
                    { st with
                      events := st.events ++ [.errorMoving m cause],
                      skipped := st.skipped + 1 }).skipped := h2
            omega

theorem organizeFold_skipped0_files (orc : Str → Option Str) (rn : Str)
    (ch : List Entry) (hsk : (organizeFold false orc rn ch).skipped = 0) :
    ∀ n, Entry.file n ∈ (organizeFold false orc rn ch).children →
      skipCase rn (Entry.file n) := by
  unfold organizeFold at hsk ⊢
  obtain ⟨extra, h1, _⟩ := ensureFolders_append ch
  rw [h1] at hsk ⊢
  intro n hn
  have hres := foldl_no_skip_leftover orc rn (ch ++ extra)
    ⟨ch ++ extra, (ensureFolders ch).2, 0, 0⟩ hsk n hn
  exact hres.2 hres.1

theorem organizeFold_moved0_of_skips (dry : Bool) (orc : Str → Option Str)
    (rn : Str) (ch : List Entry)
    (h : ∀ n, Entry.file n ∈ ch → skipCase rn (Entry.file n)) :
    (organizeFold dry orc rn ch).moved = 0 := by
  unfold organizeFold
  obtain ⟨extra, h1, h2⟩ := ensureFolders_append ch
  rw [h1]
  have hall : ∀ e ∈ ch ++ extra, skipCase rn e := by
    intro e he
    rcases List.mem_append.mp he with he' | he'
    · match e with
      | .dir _ _ => trivial
      | .file n => exact h n he'
    · obtain ⟨p, _, rfl⟩ := h2 e he'
      trivial
  rw [foldl_skipCase dry orc rn (ch ++ extra)
    ⟨ch ++ extra, (ensureFolders ch).2, 0, 0⟩ hall]

theorem runSkipped_organize_dir (dry : Bool) (orc : Str → Option Str)
    (rn : Str) (ch : List Entry) :
    runSkipped (organize_files dry orc (.dir rn ch))
      = some (organizeFold dry orc rn ch).skipped := by
  rw [organize_files_dir]
  simp only [runSkipped, Except.toOption, Option.map_some']

theorem runMoved_organize_dir (dry : Bool) (orc : Str → Option Str)
    (rn : Str) (ch : List Entry) :
    runMoved (organize_files dry orc (.dir rn ch))
      = some (organizeFold dry orc rn ch).moved := by
  rw [organize_files_dir]
  simp only [runMoved, Except.toOption, Option.map_some']

theorem rerun_organize_dir (dry dry2 : Bool) (orc orc2 : Str → Option Str)
    (rn : Str) (ch : List Entry) :
    rerun dry2 orc2 (organize_files dry orc (.dir rn ch))
      = organize_files dry2 orc2
          (.dir rn (organizeFold dry orc rn ch).children) := by
  rw [organize_files_dir]
  simp only [rerun]

/-- C4 (amended). If the first run reports no move failures (skipped
count 0), a second run on the directory it leaves behind, with no external
changes, moves zero files. -/
theorem organize_second_run_moves_nothing :
    ∀ (rn : Str) (ch : List Entry) (orc : Str → Option Str),
      runSkipped (organize_files false orc (.dir rn ch)) = some 0 →
      runMoved (rerun false orc (organize_files false orc (.dir rn ch))) = some 0 := by
  intro rn ch orc hsk
  rw [runSkipped_organize_dir] at hsk
  have hsk0 : (organizeFold false orc rn ch).skipped = 0 :=
    Option.some_injective Nat hsk
  have hgood := organizeFold_skipped0_files orc rn ch hsk0
  rw [rerun_organize_dir, runMoved_organize_dir]
  exact congrArg some (organizeFold_moved0_of_skips false orc rn
    (organizeFold false orc rn ch).children hgood)

/-- Witness for the amended C4 at a concrete one-file root. -/
theorem organize_second_run_moves_nothing_witness :
    runSkipped (organize_files false noFailures
      (.dir (str "Downloads") [Entry.file (str "a.pdf")])) = some 0 ∧
    runMoved (rerun false noFailures (organize_files false noFailures
      (.dir (str "Downloads") [Entry.file (str "a.pdf")]))) = some 0 :=
  ⟨by decide,
   organize_second_run_moves_nothing (str "Downloads")
     [Entry.file (str "a.pdf")] noFailures (by decide)⟩

/-- C4 as stated is false: in a root holding "a.pdf" and a regular file
named "Documents", the first run moves "Documents" to Others but fails on
"a.pdf" (its destination's parent is not a directory); the second run then
creates the Documents folder and moves "a.pdf", so the second run moves
one file, not zero. -/
theorem idempotence_counterexample :
    runMoved (rerun false noFailures (organize_files false noFailures
      (.dir (str "Downloads")
        [Entry.file (str "a.pdf"), Entry.file (str "Documents")])))
      = some 1 ∧
    ¬runMoved (rerun false noFailures (organize_files false noFailures
      (.dir (str "Downloads")
        [Entry.file (str "a.pdf"), Entry.file (str "Documents")])))
      = some 0 :=
  ⟨by decide, by decide⟩

/-- C6. Per-file error isolation: when the move of a processed (non-skipped)
file fails, the loop body appends exactly one error event naming the file
and the underlying cause, increments the skipped counter by exactly one,
and leaves the moved counter and the children untouched; and a run over an
existing directory always completes normally with a final summary event,
whatever failures occur. -/
theorem per_file_error_isolation :
    (∀ (orc : Str → Option Str) (rn : Str) (rs : RunState) (n cause : Str),
      startsWithDot n = false → ¬rn = categoryOf n →
      moveFailure rs.children (categoryOf n) n orc = some cause →
      processItem false orc rn rs (.file n)
        = { rs with
            events := rs.events ++ [.errorMoving n cause],
            skipped := rs.skipped + 1 }) ∧
    (∀ (orc : Str → Option Str) (rn : Str) (ch : List Entry),
      runOk (organize_files false orc (.dir rn ch)) = true ∧
      lastEvent (organize_files false orc (.dir rn ch))
        = some (.summary (organizeFold false orc rn ch).moved
            (organizeFold false orc rn ch).skipped)) := by
  refine ⟨processItem_moveFail_eq, fun orc rn ch => ⟨?_, ?_⟩⟩
  · rw [organize_files_dir]
    simp only [runOk]
  · rw [organize_files_dir]
    simp only [lastEvent, Except.toOption, Option.some_bind]
    exact List.getLast?_concat _

/-- Witness for C6: a permission failure on "a.pdf" is logged, counted as
one skip, and mutates nothing else. -/
theorem per_file_error_isolation_witness :
    moveFailure ([] : List Entry) (categoryOf (str "a.pdf")) (str "a.pdf")
        (fun _ => some (str "PermissionError")) = some (str "PermissionError") ∧
    processItem false (fun _ => some (str "PermissionError")) (str "Downloads")
        ⟨[], [], 0, 0⟩ (.file (str "a.pdf"))
      = ⟨[], [Event.errorMoving (str "a.pdf") (str "PermissionError")], 0, 1⟩ :=
  ⟨by decide,
   per_file_error_isolation.1 (fun _ => some (str "PermissionError"))
     (str "Downloads") ⟨[], [], 0, 0⟩ (str "a.pdf") (str "PermissionError")
     (by decide) (by decide) (by decide)⟩

/-- C7 (amended). A missing root is reported exactly once (a single
not-found event), with no folder created, no file moved, and a None return
value; the claim's parenthetical about a root that exists but is not a
directory does not hold (see the counterexample). -/
theorem missing_root_reports_not_found :
    ∀ (dry : Bool) (orc : Str → Option Str),
      organize_files dry orc .missing
        = .ok ⟨.missing, [.notFound], none, 0, 0⟩ :=
  fun _ _ => rfl

/-- C7 as stated is false when the root exists but is not a directory:
the run raises NotADirectoryError out of the first folder creation instead
of reporting the not-found condition, and emits no event at all. -/
theorem nondirectory_root_counterexample :
    organize_files false noFailures .file = .error (str "NotADirectoryError") ∧
    runEvents (organize_files false noFailures .file) = none :=
  ⟨rfl, rfl⟩

/-- C8 (amended). Every completed run on an existing directory emits a
final summary event carrying the run's total moved and skipped counts, but
the method's return value is None: the counts are observable from the log,
not from the return value. -/
theorem summary_logged_but_not_returned :
    ∀ (dry : Bool) (orc : Str → Option Str) (rn : Str) (ch : List Entry),
      lastEvent (organize_files dry orc (.dir rn ch))
        = some (.summary (organizeFold dry orc rn ch).moved
            (organizeFold dry orc rn ch).skipped) ∧
      runRetval (organize_files dry orc (.dir rn ch)) = some none ∧
      runMoved (organize_files dry orc (.dir rn ch))
        = some (organizeFold dry orc rn ch).moved ∧
      runSkipped (organize_files dry orc (.dir rn ch))
        = some (organizeFold dry orc rn ch).skipped := by
  intro dry orc rn ch
  refine ⟨?_, ?_, runMoved_organize_dir dry orc rn ch,
    runSkipped_organize_dir dry orc rn ch⟩
  · rw [organize_files_dir]
    simp only [lastEvent, Except.toOption, Option.some_bind]
    exact List.getLast?_concat _
  · rw [organize_files_dir]
    simp only [runRetval, Except.toOption, Option.map_some']

/-- C8 as stated is false: a run that moves one file (and logs the summary)
still returns None, so the two counts are not observable from the return
value. -/
theorem counts_not_in_return_value :
    runMoved (organize_files false noFailures
      (.dir (str "Downloads") [Entry.file (str "a.pdf")])) = some 1 ∧
    runSkipped (organize_files false noFailures
      (.dir (str "Downloads") [Entry.file (str "a.pdf")])) = some 0 ∧
    runRetval (organize_files false noFailures
      (.dir (str "Downloads") [Entry.file (str "a.pdf")])) = some none :=
  ⟨by decide, by decide, by decide⟩

/-! ### Simulation machinery -/

theorem ensure_go_events (cats : List (Str × List Str)) :
    ∀ (acc : List Entry × List Event),
      ∃ more, (cats.foldl
          (fun acc p =>
            if (lookupEntry acc.1 p.1).isSome then acc
            else (acc.1 ++ [.dir p.1 []], acc.2 ++ [.createdFolder p.1]))
          acc).2 = acc.2 ++ more ∧
        ∀ e ∈ more, ∃ c, e = Event.createdFolder c := by
  induction cats with
  | nil => exact fun acc => ⟨[], by simp⟩
  | cons p rest ih =>
    intro acc
    rw [List.foldl_cons]
    by_cases hl : (lookupEntry acc.1 p.1).isSome
    · rw [if_pos hl]
      exact ih acc
    · rw [if_neg hl]
      obtain ⟨more, h1, h2⟩ := ih (acc.1 ++ [.dir p.1 []], acc.2 ++ [.createdFolder p.1])
      refine ⟨Event.createdFolder p.1 :: more, ?_, ?_⟩
      · rw [h1]; simp
      · intro e he
        rcases List.mem_cons.mp he with rfl | he'
        · exact ⟨p.1, rfl⟩
        · exact h2 e he'

theorem movedPairs_append (a b : List Event) :
    movedPairs (a ++ b) = movedPairs a ++ movedPairs b :=
  List.filterMap_append a b _

theorem wouldMovePairs_append (a b : List Event) :
    wouldMovePairs (a ++ b) = wouldMovePairs a ++ wouldMovePairs b :=
  List.filterMap_append a b _

theorem movedPairs_created (evts : List Event)
    (h : ∀ e ∈ evts, ∃ c, e = Event.createdFolder c) : movedPairs evts = [] := by
  induction evts with
  | nil => rfl
  | cons e rest ih =>
    obtain ⟨c, rfl⟩ := h e (List.mem_cons_self e rest)
    simpa [movedPairs] using ih fun e he => h e (List.mem_cons_of_mem _ he)

theorem wouldMovePairs_created (evts : List Event)
    (h : ∀ e ∈ evts, ∃ c, e = Event.createdFolder c) : wouldMovePairs evts = [] := by
  induction evts with
  | nil => rfl
  | cons e rest ih =>
    obtain ⟨c, rfl⟩ := h e (List.mem_cons_self e rest)
    simpa [wouldMovePairs] using ih fun e he => h e (List.mem_cons_of_mem _ he)

theorem movedPairs_map_would (l : List (Str × Str)) :
    movedPairs (l.map fun q => Event.wouldMove q.1 q.2) = [] := by
  induction l with
  | nil => rfl
  | cons q rest ih => simp [movedPairs, ih]

theorem movedPairs_map_moved (l : List (Str × Str)) :
    movedPairs (l.map fun q => Event.moved q.1 q.2) = l := by
  induction l with
  | nil => rfl
  | cons q rest ih => simpa [movedPairs] using ih

theorem wouldMovePairs_map_would (l : List (Str × Str)) :
    wouldMovePairs (l.map fun q => Event.wouldMove q.1 q.2) = l := by
  induction l with
  | nil => rfl
  | cons q rest ih => simpa [wouldMovePairs] using ih

theorem foldl_dry_run (orc : Str → Option Str) (rn : Str) :
    ∀ (items : List Entry) (st : RunState),
      items.foldl (processItem true orc rn) st
        = { st with
            events := st.events
              ++ (items.filterMap (attemptedPair rn)).map
                  fun q => Event.wouldMove q.1 q.2 } := by
  intro items
  induction items with
  | nil =>
    intro st
    cases st
    simp
  | cons it rest ih =>
    intro st
    rw [List.foldl_cons]
    match it with
    | .dir q c =>
      rw [processItem_dir_eq, ih]
      simp [attemptedPair]
    | .file m =>
      by_cases h1 : startsWithDot m
      · rw [processItem_hidden_eq true orc rn st m h1, ih]
        simp [attemptedPair, h1]
      · have h1f : startsWithDot m = false := by simpa using h1
        by_cases h2 : rn = categoryOf m
        · rw [processItem_placed_eq true orc rn st m h2, ih]
          simp [attemptedPair, h1f, h2]
        · rw [processItem_dry_eq orc rn st m h1f h2, ih]
          simp [attemptedPair, h1f, h2]

theorem foldl_real_run (orc : Str → Option Str) (rn : Str)
    (horc : ∀ n, orc n = none) :
    ∀ (items : List Entry) (st : RunState),
      (∀ p ∈ categories, dirOnly st.children p.1) →
      (items.foldl (processItem false orc rn) st).events
        = st.events ++ (items.filterMap (attemptedPair rn)).map
            fun q => Event.moved q.1 q.2 := by
  intro items
  induction items with
  | nil =>
    intro st _
    simp
  | cons it rest ih =>
    intro st hinv
    rw [List.foldl_cons]
    match it with
    | .dir q c =>
      rw [processItem_dir_eq, ih st hinv]
      simp [attemptedPair]
    | .file m =>
      by_cases h1 : startsWithDot m
      · rw [processItem_hidden_eq false orc rn st m h1, ih st hinv]
        simp [attemptedPair, h1]
      · have h1f : startsWithDot m = false := by simpa using h1
        by_cases h2 : rn = categoryOf m
        · rw [processItem_placed_eq false orc rn st m h2, ih st hinv]
          simp [attemptedPair, h1f, h2]
        · have hcat : dirOnly st.children (categoryOf m) := by
            obtain ⟨p, hp, hpeq⟩ := get_file_category_mem (pyLower (suffixOf m))
            have hpeq' : p.1 = categoryOf m := hpeq
            exact hpeq' ▸ hinv p hp
          have hmf : moveFailure st.children (categoryOf m) m orc = none :=
            moveFailure_none (horc m) hcat
          have hinv' : ∀ p ∈ categories,
              dirOnly (moveFile st.children (categoryOf m) m
                (destOf st.children m)) p.1 :=
            fun p hp => dirOnly_moveFile (hinv p hp)
          rw [processItem_moveOk_eq orc rn st m h1f h2 hmf,
            ih { children := moveFile st.children (categoryOf m) m (destOf st.children m),
                 events := st.events ++ [Event.moved m (categoryOf m)],
                 moved := st.moved + 1, skipped := st.skipped } hinv']
          simp [attemptedPair, h1f, h2]

theorem ensureFolders_allCatsDirOnly (ch : List Entry)
    (hch : ∀ e ∈ ch, ∀ p ∈ categories, Entry.name e = p.1 → Entry.isDir e = true) :
    ∀ p ∈ categories, dirOnly (ensureFolders ch).1 p.1 := by
  intro p hp
  refine ⟨ensureFolders_named ch p hp, ?_⟩
  obtain ⟨extra, h1, h2⟩ := ensureFolders_append ch
  intro e he hname
  rw [h1] at he
  rcases List.mem_append.mp he with he' | he'
  · have hd := hch e he' p hp hname
    match e, hd with
    | .dir dn dc, _ => exact ⟨dc, by rw [show dn = p.1 from hname]⟩
  · obtain ⟨q, _, rfl⟩ := h2 e he'
    exact ⟨[], by rw [show q.1 = p.1 from hname]⟩

theorem organizeFold_dry (orc : Str → Option Str) (rn : Str) (ch : List Entry) :
    ∃ children1 createEvs,
      (ensureFolders ch).1 = children1 ∧
      (ensureFolders ch).2 = createEvs ∧
      (∀ e ∈ createEvs, ∃ c, e = Event.createdFolder c) ∧
      organizeFold true orc rn ch
        = ⟨children1,
           createEvs ++ (children1.filterMap (attemptedPair rn)).map
             fun q => Event.wouldMove q.1 q.2,
           0, 0⟩ := by
  obtain ⟨extra, hE1, _⟩ := ensureFolders_append ch
  obtain ⟨more, hE2, hcr⟩ := ensure_go_events categories (ch, [])
  have hE2' : (ensureFolders ch).2 = more := by
    unfold ensureFolders
    simpa using hE2
  refine ⟨ch ++ extra, more, hE1, hE2', hcr, ?_⟩
  unfold organizeFold
  rw [foldl_dry_run]
  rw [hE1, hE2']

/-- Projection lemma: the full event log of a run on an existing root. -/
theorem runEvents_organize_dir (dry : Bool) (orc : Str → Option Str)
    (rn : Str) (ch : List Entry) :
    runEvents (organize_files dry orc (.dir rn ch))
      = some ((organizeFold dry orc rn ch).events
          ++ [.summary (organizeFold dry orc rn ch).moved
                (organizeFold dry orc rn ch).skipped]) := by
  rw [organize_files_dir]
  simp only [runEvents, Except.toOption, Option.map_some']

/-- C5 (amended). Simulation is non-destructive: a dry run increments no
moved or skipped counter, leaves every child where folder creation left it
(no file changes location), performs no move (no Moved event); and a real
run on identical inputs in which every move succeeds (no environmental
failure and no root file bearing a category name) performs exactly the
source-name / category moves the simulation predicted. -/
theorem simulation_nondestructive :
    (∀ (orc : Str → Option Str) (rn : Str) (ch : List Entry),
      runMoved (organize_files true orc (.dir rn ch)) = some 0 ∧
      runSkipped (organize_files true orc (.dir rn ch)) = some 0 ∧
      finalChildren (organize_files true orc (.dir rn ch)) = (ensureFolders ch).1 ∧
      (runEvents (organize_files true orc (.dir rn ch))).map movedPairs = some []) ∧
    (∀ (orc : Str → Option Str) (rn : Str) (ch : List Entry),
      (∀ n, orc n = none) →
      (∀ e ∈ ch, ∀ p ∈ categories, Entry.name e = p.1 → Entry.isDir e = true) →
      (runEvents (organize_files false orc (.dir rn ch))).map movedPairs
        = (runEvents (organize_files true orc (.dir rn ch))).map wouldMovePairs) := by
  constructor
  · intro orc rn ch
    obtain ⟨children1, createEvs, hE1, hE2, hcr, hfold⟩ := organizeFold_dry orc rn ch
    have hmv : (organizeFold true orc rn ch).moved = 0 := by rw [hfold]
    have hsk : (organizeFold true orc rn ch).skipped = 0 := by rw [hfold]
    have hchl : (organizeFold true orc rn ch).children = children1 := by rw [hfold]
    have hev : (organizeFold true orc rn ch).events
        = createEvs ++ (children1.filterMap (attemptedPair rn)).map
            (fun q => Event.wouldMove q.1 q.2) := by rw [hfold]
    refine ⟨?_, ?_, ?_, ?_⟩
    · rw [runMoved_organize_dir, hmv]
    · rw [runSkipped_organize_dir, hsk]
    · rw [organize_files_dir]
      simp only [finalChildren, rootChildren]
      rw [hchl, hE1]
    · rw [runEvents_organize_dir, hev, Option.map_some']
      rw [movedPairs_append, movedPairs_append,
        movedPairs_created createEvs hcr, movedPairs_map_would]
      rfl
  · intro orc rn ch horc hch
    obtain ⟨children1, createEvs, hE1, hE2, hcr, hfold⟩ := organizeFold_dry orc rn ch
    have hev_dry : (organizeFold true orc rn ch).events
        = createEvs ++ (children1.filterMap (attemptedPair rn)).map
            (fun q => Event.wouldMove q.1 q.2) := by rw [hfold]
    have hinv : ∀ p ∈ categories, dirOnly children1 p.1 :=
      hE1 ▸ ensureFolders_allCatsDirOnly ch hch
    have hev_real : (organizeFold false orc rn ch).events
        = createEvs ++ (children1.filterMap (attemptedPair rn)).map
            (fun q => Event.moved q.1 q.2) := by
      unfold organizeFold
      rw [hE1, hE2]
      exact foldl_real_run orc rn horc children1 ⟨children1, createEvs, 0, 0⟩ hinv
    rw [runEvents_organize_dir, runEvents_organize_dir, Option.map_some',
      Option.map_some', hev_real, hev_dry]
    rw [movedPairs_append, movedPairs_append, wouldMovePairs_append,
      wouldMovePairs_append, movedPairs_created createEvs hcr,
      wouldMovePairs_created createEvs hcr, movedPairs_map_moved,
      wouldMovePairs_map_would]
    rfl

/-- Witness for C5: on a root holding just "a.pdf", the real run performs
exactly the move the dry run predicted. -/
theorem simulation_nondestructive_witness :
    (runEvents (organize_files false noFailures
        (.dir (str "Downloads") [Entry.file (str "a.pdf")]))).map movedPairs
      = (runEvents (organize_files true noFailures
          (.dir (str "Downloads") [Entry.file (str "a.pdf")]))).map wouldMovePairs :=
  simulation_nondestructive.2 noFailures (str "Downloads")
    [Entry.file (str "a.pdf")] (fun _ => rfl) (by decide)

/-- C5 as stated is false: with a regular file named "Documents" among the
children, the dry run predicts two moves but the real run performs only
one ("a.pdf" cannot be moved below the regular file "Documents"), with no
environmental failure involved. -/
theorem simulation_prediction_counterexample :
    (runEvents (organize_files true noFailures
        (.dir (str "Downloads")
          [Entry.file (str "Documents"), Entry.file (str "a.pdf")]))).map
        wouldMovePairs
      = some [(str "Documents", str "Others"), (str "a.pdf", str "Documents")] ∧
    (runEvents (organize_files false noFailures
        (.dir (str "Downloads")
          [Entry.file (str "Documents"), Entry.file (str "a.pdf")]))).map
        movedPairs
      = some [(str "Documents", str "Others")] ∧
    ¬(runEvents (organize_files false noFailures
        (.dir (str "Downloads")
          [Entry.file (str "Documents"), Entry.file (str "a.pdf")]))).map
        movedPairs
      = (runEvents (organize_files true noFailures
          (.dir (str "Downloads")
            [Entry.file (str "Documents"), Entry.file (str "a.pdf")]))).map
          wouldMovePairs :=
  ⟨by decide, by decide, by decide⟩

end OrganizeDownloads
